import Mathlib

/-!
Verification of the donatj/mpo repository (Go): a shallow embedding of the
MPF segment builder (writer.go), the JPEG frame scanner (reader.go
DecodeAll), the Nintendo metadata extractor, and the encoder offset
computation, together with theorems settling the specification claims.

Bytes are modelled as natural numbers (every byte produced is < 256);
machine-integer behaviour (uint32 casts, uint8 wrap-around of the scanner
depth counter) is modelled with explicit `% 2^32` / `% 256` arithmetic at
exactly the points where the Go code performs a cast or a wrapping
operation.
-/

namespace Mpo

/-- Little-endian serialization of a 16-bit value, as binary.Write with
binary.LittleEndian does for uint16 (bytes are the value mod 2^16). -/
def le16 (n : Nat) : List Nat := [n % 256, n / 256 % 256]

/-- Little-endian serialization of a 32-bit value, as binary.Write with
binary.LittleEndian does for uint32 (bytes are the value mod 2^32). -/
def le32 (n : Nat) : List Nat :=
  [n % 256, n / 256 % 256, n / 65536 % 256, n / 16777216 % 256]

def tagMPFVersion : Nat := 0xB000
def tagNumImages : Nat := 0xB001
def tagMPImageList : Nat := 0xB002
def typeUNDEFINED : Nat := 7
def typeLONG : Nat := 4
def tiffHeaderSize : Nat := 8
def flagRepresentative : Nat := 0x20000000
def mpTypeBaseline : Nat := 0x00030000

/-- The MP Entry array written by the loop at the end of buildMPFSegment:
for each frame a 4-byte attribute word (the first entry additionally ORs in
the representative flag), 4-byte size, 4-byte offset and two zero 16-bit
dependency fields. `i` is the loop index. -/
def mpEntries : Nat → List Nat → List Nat → List Nat
  | _, [], _ => []
  | _, _ :: _, [] => []
  | i, off :: offs, sz :: szs =>
    let attr := if i = 0 then mpTypeBaseline ||| flagRepresentative else mpTypeBaseline
    le32 attr ++ le32 sz ++ le32 off ++ le16 0 ++ le16 0 ++ mpEntries (i + 1) offs szs

/-- Shallow embedding of buildMPFSegment (writer.go). Returns none exactly
when the Go function returns its length-mismatch error. The byte list is
built in the order of the Go writes; the APP2 length placeholder at
positions 2 and 3 is patched after serialization exactly as in the source
(data[2] = byte(segLen >> 8), data[3] = byte(segLen)). -/
def buildMPFSegment (offsets sizes : List Nat) : Option (List Nat) :=
  if offsets.length ≠ sizes.length then none
  else
    let numImg := offsets.length
    let numTags := 3
    let pre : List Nat :=
      [0xFF, 0xE2, 0x00, 0x00] ++
      [77, 80, 70, 0x00] ++
      [73, 73] ++ le16 0x2A ++ le32 8 ++
      le16 numTags ++
      le16 tagMPFVersion ++ le16 typeUNDEFINED ++ le32 4 ++ [48, 49, 48, 48] ++
      le16 tagNumImages ++ le16 typeLONG ++ le32 1 ++ le32 numImg ++
      le16 tagMPImageList ++ le16 typeUNDEFINED ++ le32 (numImg * 16) ++
        le32 (tiffHeaderSize + 2 + numTags * 12 + 4) ++
      le32 0 ++
      mpEntries 0 offsets sizes
    let segLen := pre.length - 2
    some ((pre.set 2 (segLen / 256 % 256)).set 3 (segLen % 256))

/-- Length of an APP0/JFIF segment immediately after SOI (findJFIFEnd in
writer.go): 0 unless the bytes start with FF E0 and carry a usable
big-endian declared length. -/
def findJFIFEnd (d : List Nat) : Nat :=
  if d.length < 4 ∨ d.getD 0 0 ≠ 0xFF ∨ d.getD 1 0 ≠ 0xE0 then 0
  else
    let l := d.getD 2 0 * 256 + d.getD 3 0
    if 2 ≤ l ∧ l ≤ d.length then l else 0

/-- The offset loop of EncodeAll (writer.go lines 46-49): for each frame
after the first, the offset is the current uint32 file position minus the
endian-marker position (uint32 wrap-around subtraction), after which the
file position advances by that frame's encoded length. -/
def offsetsLoop : List Nat → Nat → Nat → List Nat
  | [], _, _ => []
  | l :: rest, filePos, posEndian =>
    (filePos + 2 ^ 32 - posEndian) % 2 ^ 32 ::
      offsetsLoop rest ((filePos + l % 2 ^ 32) % 2 ^ 32) posEndian

/-- Offset computation of EncodeAll (writer.go lines 41-51): posEndian is
SOI + JFIF + 8 bytes, filePos starts after the first JPEG plus the MPF
segment, and the first offset is set to 0 by convention. -/
def computeOffsets (bufLens : List Nat) (mpfSize jfifLen : Nat) : List Nat :=
  match bufLens with
  | [] => []
  | l0 :: rest =>
    let posEndian := (2 + jfifLen + 8) % 2 ^ 32
    let filePos := (l0 % 2 ^ 32 + mpfSize % 2 ^ 32) % 2 ^ 32
    0 :: offsetsLoop rest filePos posEndian

/-- The MPF segment EncodeAll emits (writer.go lines 37-56): a first build
with placeholder offsets measures the segment (the Go code ignores the
error of that call, so a nil result is measured as length 0), then the real
offsets are computed and the segment rebuilt. -/
def encodeAllMPFSegment (bufLens : List Nat) (jfifLen : Nat) : Option (List Nat) :=
  let tmp := (buildMPFSegment (List.replicate bufLens.length 0) bufLens).getD []
  buildMPFSegment (computeOffsets bufLens tmp.length jfifLen) bufLens

def mpojpgMKR : Nat := 0xFF
def mpojpgSOI : Nat := 0xD8
def mpojpgEOI : Nat := 0xD9
def mpojpgAPP2 : Nat := 0xE2

/-- The frame-scanner loop of DecodeAll (reader.go lines 80-112). The state
is the uint8 nesting depth (kept below 256, with wrap-around modelled as
`% 256` exactly where the Go uint8 increment and decrement wrap), the
candidate frame start, the current location, and the ranges emitted so far.
A range (s, e) is the byte range [s, e) of one frame, recorded on the
marker pair that brings the depth back to 0; a final frame left open at end
of input is never emitted, and a lone marker-prefix byte at the very end of
the input ends the scan. -/
def scanLoop : List Nat → Nat → Nat → Nat → List (Nat × Nat) → List (Nat × Nat)
  | [], _, _, _, acc => acc
  | b :: rest, depth, imgStart, loc, acc =>
    if b = mpojpgMKR then
      match rest with
      | [] => acc
      | b2 :: rest2 =>
        if b2 = mpojpgSOI then
          scanLoop rest2 ((depth + 1) % 256) (if depth = 0 then loc else imgStart)
            (loc + 2) acc
        else if b2 = mpojpgEOI then
          let depth2 := (depth + 255) % 256
          scanLoop rest2 depth2 imgStart (loc + 2)
            (if depth2 = 0 then acc ++ [(imgStart, loc + 2)] else acc)
        else
          scanLoop rest2 depth imgStart (loc + 2) acc
    else
      scanLoop rest depth imgStart (loc + 1) acc

/-- The sequence of frame byte ranges DecodeAll scans from a buffer. -/
def scanRanges (buf : List Nat) : List (Nat × Nat) :=
  scanLoop buf 0 0 0 []

/-- Companion of scanLoop that is true exactly when the uint8 depth counter
never wraps during the scan: no end-of-image pair is seen at depth 0 and no
start-of-image pair at depth 255. -/
def scanNoWrap : List Nat → Nat → Bool
  | [], _ => true
  | b :: rest, depth =>
    if b = mpojpgMKR then
      match rest with
      | [] => true
      | b2 :: rest2 =>
        if b2 = mpojpgSOI then depth != 255 && scanNoWrap rest2 ((depth + 1) % 256)
        else if b2 = mpojpgEOI then depth != 0 && scanNoWrap rest2 ((depth + 255) % 256)
        else scanNoWrap rest2 depth
    else scanNoWrap rest depth

/-- The property claimed of the scanner output: consecutive emitted ranges
have strictly increasing start offsets and do not overlap (each range ends
at or before the next begins), and every range is well formed. -/
def goodRanges (l : List (Nat × Nat)) : Prop :=
  (∀ r ∈ l, r.1 < r.2) ∧ l.Chain' (fun a b => a.1 < b.1 ∧ a.2 ≤ b.1)

/-- A run of k stray end-of-image marker pairs, used to drive the scanner
depth counter around its 8-bit wrap-around. -/
def eoiBlock : Nat → List Nat
  | 0 => []
  | k + 1 => 255 :: 217 :: eoiBlock k

/-- The frame-decode loop of DecodeAll (reader.go lines 118-127) over an
abstract JPEG codec: decode each scanned section in order, aborting with
the codec's error on the first failure. -/
def decodeFrames {α ε β : Type} (dec : α → Except ε β) : List α → Except ε (List β)
  | [] => .ok []
  | s :: rest =>
    match dec s with
    | .error e => .error e
    | .ok img =>
      match decodeFrames dec rest with
      | .error e => .error e
      | .ok imgs => .ok (img :: imgs)

/-- DecodeAll after buffering: scan the buffer into ranges, then decode
each range with the external codec. -/
def decodeAllModel {ε β : Type} (dec : Nat × Nat → Except ε β) (buf : List Nat) :
    Except ε (List β) :=
  decodeFrames dec (scanRanges buf)

/-- Error taxonomy of EncodeAll: a codec error from jpeg.Encode, the
no-images error, the missing-SOI error on the first encoded frame, or the
propagated buildMPFSegment length-mismatch error. -/
inductive EncErr (ε : Type) where
  | codec (e : ε)
  | noImages
  | missingSOI
  | lenMismatch
  deriving DecidableEq

/-- The JPEG-encode loop of EncodeAll (writer.go lines 18-27): encode every
image, aborting on the first codec error. -/
def encodeImages {α ε : Type} (enc : α → Except ε (List Nat)) :
    List α → Except ε (List (List Nat))
  | [] => .ok []
  | i :: rest =>
    match enc i with
    | .error e => .error e
    | .ok b =>
      match encodeImages enc rest with
      | .error e => .error e
      | .ok bs => .ok (b :: bs)

/-- EncodeAll (writer.go) over an abstract JPEG encoder. The second
component of the result is the sequence of bytes written to the output
writer; every error path of the Go function returns before the first
write, so each error pairs with an empty output. -/
def encodeAllRun {α ε : Type} (enc : α → Except ε (List Nat)) (imgs : List α) :
    Option (EncErr ε) × List Nat :=
  match encodeImages enc imgs with
  | .error e => (some (.codec e), [])
  | .ok bufs =>
    if bufs.length = 0 then (some .noImages, [])
    else
      let first := bufs.headD []
      if first.take 2 ≠ [0xFF, 0xD8] then (some .missingSOI, [])
      else
        let jfifLen := findJFIFEnd (first.drop 2)
        match encodeAllMPFSegment (bufs.map (·.length)) jfifLen with
        | none => (some .lenMismatch, [])
        | some seg =>
          (none, first.take 2 ++ (first.drop 2).take jfifLen ++ seg ++
            first.drop (2 + jfifLen) ++ (bufs.drop 1).flatten)

/-- The segment-scan loop of parseNintendoMetadata (reader source), made
total with a fuel parameter; parseNintendoMetadata supplies fuel
`data.length`, which exceeds the number of loop iterations (the position
strictly increases every iteration and the loop runs only while
pos < data.length - 8), so the fuel-exhausted branch is unreachable from
the entry point. The result is ok none when the Go function returns nil,
ok (some raw) when it returns a metadata struct, and error () when the Go
code panics: on a matching segment the slice length dataEnd - dataStart is
a Go int, and when the declared segment end lies before the end of the tag
(declared length 2..5) it is negative and make([]byte, dataEnd-dataStart)
panics at run time. -/
def nintLoop (data : List Nat) : Nat → Nat → Except Unit (Option (List Nat))
  | _, 0 => .ok none
  | pos, fuel + 1 =>
    if pos < data.length - 8 then
      if data.getD pos 0 = mpojpgMKR ∧ pos + 1 < data.length ∧
          data.getD (pos + 1) 0 = mpojpgAPP2 then
        if pos + 3 ≥ data.length then .ok none
        else
          let segLen := data.getD (pos + 2) 0 * 256 + data.getD (pos + 3) 0
          if segLen < 2 ∨ pos + 2 + segLen > data.length then
            nintLoop data (pos + 1) fuel
          else if pos + 8 ≤ data.length ∧ data.getD (pos + 4) 0 = 78 ∧
              data.getD (pos + 5) 0 = 73 ∧ data.getD (pos + 6) 0 = 78 ∧
              data.getD (pos + 7) 0 = 84 then
            let dataStart := pos + 8
            let dataEnd := min (pos + 2 + segLen) data.length
            if dataEnd < dataStart then .error ()
            else .ok (some ((data.drop dataStart).take (dataEnd - dataStart)))
          else
            nintLoop data (pos + 2 + segLen) fuel
      else
        nintLoop data (pos + 1) fuel
    else .ok none

/-- parseNintendoMetadata: scan the raw data for an APP2 segment tagged
NINT and return the bytes after the tag up to the declared segment end;
ok none when no such segment is found, error () when the scan panics on a
matching segment whose declared end precedes the end of the tag. -/
def parseNintendoMetadata (data : List Nat) : Except Unit (Option (List Nat)) :=
  nintLoop data 0 data.length

/-- Proof helper: the bytes of a built MPF segment after the four-byte
APP2 marker and patched length field, with the numeric fields
(0x2A magic, tag ids, types, counts, the entry-array pointer 50 and the
zero next-IFD pointer) evaluated to their little-endian bytes. -/
def mpfBody (offsets sizes : List Nat) : List Nat :=
  [77, 80, 70, 0, 73, 73, 42, 0, 8, 0, 0, 0, 3, 0,
   0, 176, 7, 0, 4, 0, 0, 0, 48, 49, 48, 48,
   1, 176, 4, 0, 1, 0, 0, 0] ++ le32 offsets.length ++
  [2, 176, 7, 0] ++ le32 (offsets.length * 16) ++
  [50, 0, 0, 0, 0, 0, 0, 0] ++ mpEntries 0 offsets sizes

theorem mpEntries_length : ∀ (i : Nat) (o s : List Nat), o.length = s.length →
    (mpEntries i o s).length = 16 * o.length := by
  intro i o
  induction o generalizing i with
  | nil => intro s _; simp [mpEntries]
  | cons off offs ih =>
    intro s h
    cases s with
    | nil => simp at h
    | cons sz szs =>
      simp only [List.length_cons, Nat.succ.injEq] at h
      simp [mpEntries, le16, le32, ih (i + 1) szs h]
      omega

theorem mpfBody_length (o s : List Nat) (h : o.length = s.length) :
    (mpfBody o s).length = 54 + 16 * o.length := by
  simp [mpfBody, le16, le32, mpEntries_length 0 o s h]
  omega

/-- Shape of a successfully built segment: the marker bytes, the patched
big-endian length (the declared length is 56 + 16n where n is the frame
count), then the fixed directory and the entry array. -/
theorem buildMPFSegment_eq (o s : List Nat) (h : o.length = s.length) :
    buildMPFSegment o s =
      some (255 :: 226 :: ((56 + 16 * o.length) / 256 % 256) ::
        ((56 + 16 * o.length) % 256) :: mpfBody o s) := by
  unfold buildMPFSegment
  rw [if_neg (by omega)]
  dsimp only
  have hpre : ([0xFF, 0xE2, 0x00, 0x00] ++ [77, 80, 70, 0x00] ++
      [73, 73] ++ le16 0x2A ++ le32 8 ++ le16 3 ++
      le16 tagMPFVersion ++ le16 typeUNDEFINED ++ le32 4 ++ [48, 49, 48, 48] ++
      le16 tagNumImages ++ le16 typeLONG ++ le32 1 ++ le32 o.length ++
      le16 tagMPImageList ++ le16 typeUNDEFINED ++ le32 (o.length * 16) ++
      le32 (tiffHeaderSize + 2 + 3 * 12 + 4) ++ le32 0 ++
      mpEntries 0 o s : List Nat) = 255 :: 226 :: 0 :: 0 :: mpfBody o s := by
    simp [mpfBody, le16, le32, tagMPFVersion, tagNumImages, tagMPImageList,
      typeUNDEFINED, typeLONG, tiffHeaderSize]
  rw [hpre]
  have hlen : (255 :: 226 :: 0 :: 0 :: mpfBody o s : List Nat).length - 2 =
      56 + 16 * o.length := by
    simp [mpfBody_length o s h]
    omega
  rw [hlen]
  rfl

/-- C1 counterexample: for the empty frame list (and in fact for every n),
the little-endian 32-bit value stored in the MPImageList (0xB002) directory
entry's value field, bytes 50..53 of the segment, is 50, not 46: the claim
that it equals 46 is false. -/
theorem mpImageList_value_not_46 :
    (((buildMPFSegment [] []).getD []).getD 50 0 +
      256 * ((buildMPFSegment [] []).getD []).getD 51 0 +
      65536 * ((buildMPFSegment [] []).getD []).getD 52 0 +
      16777216 * ((buildMPFSegment [] []).getD []).getD 53 0) = 50 ∧
    (50 : Nat) ≠ 46 := by
  constructor
  · decide
  · decide

/-- C1 amended: for every pair of equal-length offset/size sequences (any
frame count n), the value field of the MPImageList (0xB002) directory entry
in the segment returned by buildMPFSegment equals exactly
8 + 2 + 3*12 + 4 = 50 (the byte offset of the entry array from the TIFF
header), independent of n: its four little-endian bytes at positions 50..53
are 50, 0, 0, 0. -/
theorem mpImageList_value_eq_50 (o s l : List Nat)
    (h : buildMPFSegment o s = some l) :
    (l.drop 50).take 4 = le32 (tiffHeaderSize + 2 + 3 * 12 + 4) ∧
      le32 (tiffHeaderSize + 2 + 3 * 12 + 4) = [50, 0, 0, 0] := by
  rw [buildMPFSegment_eq o s (by
    by_contra hne
    rw [buildMPFSegment, if_pos hne] at h
    exact Option.noConfusion h)] at h
  have hl := Option.some.inj h
  subst hl
  exact ⟨rfl, rfl⟩

/-- C1 witness: the amended theorem evaluated at the empty input pair. -/
theorem mpImageList_value_eq_50_witness :
    ((((buildMPFSegment [] []).getD []).drop 50).take 4 =
      le32 (tiffHeaderSize + 2 + 3 * 12 + 4)) ∧
    le32 (tiffHeaderSize + 2 + 3 * 12 + 4) = [50, 0, 0, 0] :=
  mpImageList_value_eq_50 [] [] ((buildMPFSegment [] []).getD []) (by decide)

/-- Helper: the big-endian value of the patched length field and the
serialized length minus 2, for any successfully built segment, as closed
functions of the frame count. -/
theorem segment_field_pair (o s : List Nat) (h : o.length = s.length) :
    (buildMPFSegment o s).map
      (fun l => (l.getD 2 0 * 256 + l.getD 3 0, l.length - 2)) =
      some ((56 + 16 * o.length) % 65536, 56 + 16 * o.length) := by
  rw [buildMPFSegment_eq o s h]
  have hbody := mpfBody_length o s h
  simp only [Option.map_some', Option.some.injEq, Prod.mk.injEq]
  constructor
  · show (56 + 16 * o.length) / 256 % 256 * 256 + (56 + 16 * o.length) % 256 =
      (56 + 16 * o.length) % 65536
    have := Nat.mod_mul (x := 56 + 16 * o.length) (a := 256) (b := 256)
    omega
  · simp only [List.length_cons, hbody]
    omega

/-- C2 counterexample: with 4093 frames the declared segment length is
65544, which does not fit the 16-bit length field; the stored big-endian
value at bytes 2..3 is 8, not the serialized length minus 2. -/
theorem mpfLength_field_overflow :
    (buildMPFSegment (List.replicate 4093 0) (List.replicate 4093 0)).map
      (fun l => (l.getD 2 0 * 256 + l.getD 3 0, l.length - 2)) =
      some (8, 65544) ∧ (8 : Nat) ≠ 65544 := by
  constructor
  · have h := segment_field_pair (List.replicate 4093 0) (List.replicate 4093 0) rfl
    rw [List.length_replicate] at h
    have e1 : (56 + 16 * 4093) % 65536 = 8 := by norm_num
    have e2 : 56 + 16 * 4093 = 65544 := by norm_num
    rw [e1, e2] at h
    exact h
  · decide

/-- C2 amended: for every pair of equal-length offset/size sequences, the
big-endian 16-bit value stored at byte positions 2..3 of the segment
returned by buildMPFSegment equals the total serialized length of the
segment minus 2, reduced modulo 2^16; it equals the length minus 2 exactly
when that value fits in 16 bits, in particular whenever the frame count is
at most 4092. -/
theorem mpfLength_field (o s l : List Nat) (h : buildMPFSegment o s = some l) :
    l.getD 2 0 * 256 + l.getD 3 0 = (l.length - 2) % 65536 ∧
      (o.length ≤ 4092 → l.getD 2 0 * 256 + l.getD 3 0 = l.length - 2) := by
  have hlen : o.length = s.length := by
    by_contra hne
    rw [buildMPFSegment, if_pos hne] at h
    exact Option.noConfusion h
  have hc := segment_field_pair o s hlen
  rw [h] at hc
  simp only [Option.map_some', Option.some.injEq, Prod.mk.injEq] at hc
  obtain ⟨h1, h2⟩ := hc
  constructor
  · rw [h1, h2]
  · intro hn
    rw [h1, h2]
    exact Nat.mod_eq_of_lt (by omega)

/-- C2 witness: the amended theorem evaluated at the empty input pair,
whose segment has 58 bytes and declared length 56. -/
theorem mpfLength_field_witness :
    (((buildMPFSegment [] []).getD []).getD 2 0 * 256 +
        ((buildMPFSegment [] []).getD []).getD 3 0 =
      (((buildMPFSegment [] []).getD []).length - 2) % 65536) ∧
    ((List.length ([] : List Nat) ≤ 4092 →
      ((buildMPFSegment [] []).getD []).getD 2 0 * 256 +
        ((buildMPFSegment [] []).getD []).getD 3 0 =
      ((buildMPFSegment [] []).getD []).length - 2)) :=
  mpfLength_field [] [] ((buildMPFSegment [] []).getD []) (by decide)

/-- C3: buildMPFSegment fails (returns none, the LengthMismatchError case)
exactly when the offset and size sequences differ in length; with equal
lengths it always succeeds. -/
theorem buildMPFSegment_none_iff (o s : List Nat) :
    buildMPFSegment o s = none ↔ o.length ≠ s.length := by
  unfold buildMPFSegment
  split
  · simp_all
  · simp_all

/-- Step equation of the scanner loop on a start-of-image marker pair. -/
theorem scanLoop_soi (t : List Nat) (d i l : Nat) (acc : List (Nat × Nat)) :
    scanLoop (255 :: 216 :: t) d i l acc =
      scanLoop t ((d + 1) % 256) (if d = 0 then l else i) (l + 2) acc := rfl

/-- Step equation of the scanner loop on an end-of-image marker pair. -/
theorem scanLoop_eoi (t : List Nat) (d i l : Nat) (acc : List (Nat × Nat)) :
    scanLoop (255 :: 217 :: t) d i l acc =
      scanLoop t ((d + 255) % 256) i (l + 2)
        (if (d + 255) % 256 = 0 then acc ++ [(i, l + 2)] else acc) := rfl

/-- Step equation of the scanner loop on a byte that is not the marker
prefix: it is consumed and only the location advances. -/
theorem scanLoop_skip (b : Nat) (t : List Nat) (d i l : Nat)
    (acc : List (Nat × Nat)) (hb : b ≠ 255) :
    scanLoop (b :: t) d i l acc = scanLoop t d i (l + 1) acc := by
  rw [scanLoop.eq_def]
  dsimp only
  rw [if_neg (show ¬ (b = mpojpgMKR) from hb)]

/-- Marker-free byte sequences pass through the scanner loop, advancing
the location by their length and changing nothing else. -/
theorem scanLoop_passthrough (p : List Nat) (hp : 255 ∉ p) :
    ∀ (t : List Nat) (depth imgStart loc : Nat) (acc : List (Nat × Nat)),
      scanLoop (p ++ t) depth imgStart loc acc =
        scanLoop t depth imgStart (loc + p.length) acc := by
  induction p with
  | nil => intro t depth imgStart loc acc; simp
  | cons b p ih =>
    intro t depth imgStart loc acc
    have hb : b ≠ 255 := fun hb => hp (hb ▸ List.mem_cons_self b p)
    have hp2 : 255 ∉ p := fun hm => hp (List.mem_cons_of_mem b hm)
    rw [List.cons_append, scanLoop_skip b (p ++ t) depth imgStart loc acc hb,
      ih hp2 t depth imgStart (loc + 1) acc]
    congr 1
    simp
    omega

/-- C4: a buffer consisting of one complete frame (start-of-image pair, a
marker-free payload, end-of-image pair) followed by a start-of-image pair
with no matching end-of-image pair (the trailing bytes contain no marker
prefix) scans to exactly one byte range, the complete frame [0, p.length+4);
the unterminated final frame is not emitted and no error occurs. -/
theorem scan_truncated_last_frame (p t : List Nat) (hp : 255 ∉ p) (ht : 255 ∉ t) :
    scanRanges ([255, 216] ++ p ++ [255, 217] ++ [255, 216] ++ t) =
      [(0, p.length + 4)] := by
  have hassoc : ([255, 216] ++ p ++ [255, 217] ++ [255, 216] ++ t)
      = 255 :: 216 :: (p ++ ([255, 217] ++ ([255, 216] ++ t))) := by simp
  rw [scanRanges, hassoc]
  show scanLoop (p ++ ([255, 217] ++ ([255, 216] ++ t))) 1 0 2 [] = _
  rw [scanLoop_passthrough p hp]
  show scanLoop ([255, 216] ++ t) 0 0 (2 + p.length + 2)
    ([] ++ [(0, 2 + p.length + 2)]) = _
  show scanLoop t 1 (2 + p.length + 2) (2 + p.length + 2 + 2)
    [(0, 2 + p.length + 2)] = _
  have h2 := scanLoop_passthrough t ht [] 1 (2 + p.length + 2)
    (2 + p.length + 2 + 2) [(0, 2 + p.length + 2)]
  rw [List.append_nil] at h2
  rw [h2]
  show [(0, 2 + p.length + 2)] = [(0, p.length + 4)]
  have : 2 + p.length + 2 = p.length + 4 := by omega
  rw [this]

/-- C4 witness: the theorem applied to the concrete payload 1, 2 and
trailing byte 3. -/
theorem scan_truncated_last_frame_witness :
    scanRanges [255, 216, 1, 2, 255, 217, 255, 216, 3] = [(0, 6)] := by
  have h := scan_truncated_last_frame [1, 2] [3] (by decide) (by decide)
  simpa using h

/-- Step equation of the scanner loop on a marker prefix followed by a
byte that is neither start-of-image nor end-of-image: both bytes are
consumed and only the location advances. -/
theorem scanLoop_other (b2 : Nat) (t : List Nat) (d i l : Nat)
    (acc : List (Nat × Nat)) (h1 : b2 ≠ 216) (h2 : b2 ≠ 217) :
    scanLoop (255 :: b2 :: t) d i l acc = scanLoop t d i (l + 2) acc := by
  rw [scanLoop.eq_def]
  dsimp only
  rw [if_pos (show (255 : Nat) = mpojpgMKR from rfl),
    if_neg (show ¬ (b2 = mpojpgSOI) from h1),
    if_neg (show ¬ (b2 = mpojpgEOI) from h2)]

/-- Step equation of the wrap detector on a start-of-image pair. -/
theorem scanNoWrap_soi (t : List Nat) (d : Nat) :
    scanNoWrap (255 :: 216 :: t) d =
      ((d != 255) && scanNoWrap t ((d + 1) % 256)) := rfl

/-- Step equation of the wrap detector on an end-of-image pair. -/
theorem scanNoWrap_eoi (t : List Nat) (d : Nat) :
    scanNoWrap (255 :: 217 :: t) d =
      ((d != 0) && scanNoWrap t ((d + 255) % 256)) := rfl

/-- Step equation of the wrap detector on a marker prefix followed by a
byte that is neither start-of-image nor end-of-image. -/
theorem scanNoWrap_other (b2 : Nat) (t : List Nat) (d : Nat)
    (h1 : b2 ≠ 216) (h2 : b2 ≠ 217) :
    scanNoWrap (255 :: b2 :: t) d = scanNoWrap t d := by
  rw [scanNoWrap.eq_def]
  dsimp only
  rw [if_pos (show (255 : Nat) = mpojpgMKR from rfl),
    if_neg (show ¬ (b2 = mpojpgSOI) from h1),
    if_neg (show ¬ (b2 = mpojpgEOI) from h2)]

/-- Step equation of the wrap detector on a byte that is not the marker
prefix. -/
theorem scanNoWrap_skip (b : Nat) (t : List Nat) (d : Nat) (hb : b ≠ 255) :
    scanNoWrap (b :: t) d = scanNoWrap t d := by
  rw [scanNoWrap.eq_def]
  dsimp only
  rw [if_neg (show ¬ (b = mpojpgMKR) from hb)]

/-- A run of k+1 stray end-of-image pairs is a run of k pairs followed by
one more pair. -/
theorem eoiBlock_succ_right : ∀ k : Nat, eoiBlock (k + 1) = eoiBlock k ++ [255, 217] := by
  intro k
  induction k with
  | zero => rfl
  | succ k ih =>
    show 255 :: 217 :: eoiBlock (k + 1) = (255 :: 217 :: eoiBlock k) ++ [255, 217]
    rw [ih]
    rfl

/-- Running the scanner over k stray end-of-image pairs from depth d with
k < d ≤ 255 walks the depth down to d - k, advancing the location by 2k,
emitting nothing. -/
theorem scanLoop_eoiBlock_descend :
    ∀ (k : Nat) (t : List Nat) (d i l : Nat) (acc : List (Nat × Nat)),
      k < d → d ≤ 255 →
      scanLoop (eoiBlock k ++ t) d i l acc = scanLoop t (d - k) i (l + 2 * k) acc := by
  intro k
  induction k with
  | zero => intro t d i l acc _ _; simp [eoiBlock]
  | succ k ih =>
    intro t d i l acc hk hd
    show scanLoop (255 :: 217 :: (eoiBlock k ++ t)) d i l acc = _
    rw [scanLoop_eoi]
    have hmod : (d + 255) % 256 = d - 1 := by omega
    rw [hmod, if_neg (by omega)]
    rw [ih t (d - 1) i (l + 2) acc (by omega) (by omega)]
    congr 1 <;> omega

/-- C5 counterexample: the scanner output can contain overlapping ranges
with equal start offsets. After one complete frame the depth counter is 0;
256 stray end-of-image pairs wrap it through 255 back to 0, emitting a
second range that reuses the stale frame start 0 and overlaps the first. -/
theorem scan_ranges_overlap :
    scanRanges ([255, 216, 255, 217] ++ eoiBlock 256) = [(0, 4), (0, 516)] ∧
      ¬ goodRanges [(0, 4), (0, 516)] := by
  constructor
  · have e : ([255, 216, 255, 217] ++ eoiBlock 256 : List Nat) =
        255 :: 216 :: 255 :: 217 :: eoiBlock 256 := rfl
    rw [scanRanges, e, scanLoop_soi]
    norm_num
    rw [scanLoop_eoi]
    norm_num
    rw [show eoiBlock 256 = 255 :: 217 :: eoiBlock 255 from rfl, scanLoop_eoi]
    norm_num
    rw [show eoiBlock 255 = eoiBlock 254 ++ [255, 217] from eoiBlock_succ_right 254,
      scanLoop_eoiBlock_descend 254 [255, 217] 255 0 6 [(0, 4)] (by omega) (by omega)]
    norm_num
    rw [scanLoop_eoi]
    norm_num
    rfl
  · intro hg
    have hc := hg.2
    rw [List.chain'_cons] at hc
    exact Nat.lt_irrefl 0 hc.1.1

/-- Invariant preservation for the scanner loop: provided the depth counter
never wraps, the emitted ranges extend the accumulator keeping every range
well formed, consecutive ranges non-overlapping, and start offsets strictly
increasing. -/
theorem scanLoop_good (bs : List Nat) (depth imgStart loc : Nat)
    (acc : List (Nat × Nat)) :
    scanNoWrap bs depth = true →
    depth < 256 →
    (∀ r ∈ acc, r.1 < r.2) →
    acc.Chain' (fun a b => a.1 < b.1 ∧ a.2 ≤ b.1) →
    (∀ r ∈ acc, r.2 ≤ loc) →
    (depth ≠ 0 → imgStart ≤ loc ∧ ∀ r ∈ acc, r.2 ≤ imgStart) →
    goodRanges (scanLoop bs depth imgStart loc acc) := by
  induction bs, depth, imgStart, loc, acc using scanLoop.induct with
  | case1 d i l acc =>
    intro _ _ h1 h2 _ _
    exact ⟨h1, h2⟩
  | case2 d i l acc =>
    intro _ _ h1 h2 _ _
    exact ⟨h1, h2⟩
  | case3 d i l acc rest2 ih =>
    intro hnw hlt h1 h2 h3 h4
    simp only [mpojpgMKR, mpojpgSOI] at hnw ⊢
    rw [scanNoWrap_soi, Bool.and_eq_true] at hnw
    obtain ⟨hne, hnw2⟩ := hnw
    have hd255 : d ≠ 255 := by simpa using hne
    rw [scanLoop_soi]
    apply ih hnw2 (by omega) h1 h2 (fun r hr => by have := h3 r hr; omega)
    intro _
    by_cases hdz : d = 0
    · rw [if_pos hdz]
      exact ⟨by omega, h3⟩
    · rw [if_neg hdz]
      obtain ⟨ha, hb⟩ := h4 hdz
      exact ⟨by omega, hb⟩
  | case4 d i l acc rest2 depth2 hne ih =>
    intro hnw hlt h1 h2 h3 h4
    simp only [mpojpgMKR, mpojpgEOI] at hnw ⊢
    rw [scanNoWrap_eoi, Bool.and_eq_true] at hnw
    obtain ⟨hne0, hnw2⟩ := hnw
    have hd0 : d ≠ 0 := by simpa using hne0
    obtain ⟨hisl, hends⟩ := h4 hd0
    rw [scanLoop_eoi]
    unfold depth2 at ih
    by_cases hd1 : d = 1
    · subst hd1
      have hifeq : (if (1 + 255) % 256 = 0 then acc ++ [(i, l + 2)] else acc) =
          acc ++ [(i, l + 2)] := if_pos rfl
      rw [hifeq] at ih ⊢
      apply ih hnw2 (by omega)
      · intro r hr
        rcases List.mem_append.1 hr with hra | hrb
        · exact h1 r hra
        · have : r = (i, l + 2) := by simpa using hrb
          subst this
          show i < l + 2
          omega
      · rw [List.chain'_append]
        refine ⟨h2, List.chain'_singleton _, ?_⟩
        intro x hx y hy
        have hxa : x ∈ acc := List.mem_of_mem_getLast? hx
        have hyv : (i, l + 2) = y := by simpa using hy
        subst hyv
        have hx2 : x.2 ≤ i := hends x hxa
        have hx1 : x.1 < x.2 := h1 x hxa
        exact ⟨by simp; omega, by simp; omega⟩
      · intro r hr
        rcases List.mem_append.1 hr with hra | hrb
        · have := h3 r hra; omega
        · have : r = (i, l + 2) := by simpa using hrb
          subst this
          omega
      · intro hcon
        exact absurd (rfl : (1 + 255) % 256 = 0) hcon
    · have hifeq : (if (d + 255) % 256 = 0 then acc ++ [(i, l + 2)] else acc) =
          acc := by
        rw [show (d + 255) % 256 = d - 1 from by omega]
        exact if_neg (by omega)
      rw [hifeq] at ih ⊢
      apply ih hnw2 (by omega) h1 h2 (fun r hr => by have := h3 r hr; omega)
      intro _
      exact ⟨by omega, hends⟩
  | case5 d i l acc b2 rest2 hne1 hne2 ih =>
    intro hnw hlt h1 h2 h3 h4
    simp only [mpojpgMKR, mpojpgSOI, mpojpgEOI] at hnw hne1 hne2 ⊢
    rw [scanNoWrap_other b2 _ _ hne1 hne2] at hnw
    rw [scanLoop_other b2 _ _ _ _ _ hne1 hne2]
    apply ih hnw hlt h1 h2 (fun r hr => by have := h3 r hr; omega)
    intro hd
    obtain ⟨ha, hb⟩ := h4 hd
    exact ⟨by omega, hb⟩
  | case6 b rest d i l acc hb ih =>
    intro hnw hlt h1 h2 h3 h4
    simp only [mpojpgMKR] at hb
    rw [scanNoWrap_skip b _ _ hb] at hnw
    rw [scanLoop_skip b _ _ _ _ _ hb]
    apply ih hnw hlt h1 h2 (fun r hr => by have := h3 r hr; omega)
    intro hd
    obtain ⟨ha, hb2⟩ := h4 hd
    exact ⟨by omega, hb2⟩

/-- C5 amended: for every input buffer on which the scanner's 8-bit depth
counter never wraps (no end-of-image pair at depth 0 and no start-of-image
pair at depth 255), the sequence of byte ranges produced by the frame
scanner consists of well-formed, non-overlapping ranges whose start offsets
are strictly increasing in emission order. Without that condition the
property fails (the depth counter wraps and a stale start can be reused). -/
theorem scan_ranges_good (buf : List Nat) (h : scanNoWrap buf 0 = true) :
    goodRanges (scanRanges buf) :=
  scanLoop_good buf 0 0 0 [] h (by omega) (by simp) (by simp) (by simp)
    (fun hc => absurd rfl hc)

/-- C5 witness: a two-frame buffer satisfies the no-wrap condition and its
scan is well formed. -/
theorem scan_ranges_good_witness :
    goodRanges (scanRanges [255, 216, 255, 217, 255, 216, 255, 217]) :=
  scan_ranges_good [255, 216, 255, 217, 255, 216, 255, 217] (by decide)

/-- C10: the scanner depth counter is an unsigned 8-bit value with
modulo-256 wrap-around. An end-of-image pair at depth 0 wraps the depth to
255 instead of failing (first conjunct, a definitional state equation), a
start-of-image pair at depth 255 wraps it back to 0 (second conjunct), so a
buffer beginning with a stray end-of-image pair followed by one complete
frame yields zero byte ranges rather than one (third conjunct). -/
theorem scan_depth_wraps :
    (∀ (t : List Nat) (i l : Nat) (acc : List (Nat × Nat)),
        scanLoop (255 :: 217 :: t) 0 i l acc = scanLoop t 255 i (l + 2) acc) ∧
    (∀ (t : List Nat) (i l : Nat) (acc : List (Nat × Nat)),
        scanLoop (255 :: 216 :: t) 255 i l acc = scanLoop t 0 i (l + 2) acc) ∧
    scanRanges [255, 217, 255, 216, 255, 217] = [] := by
  refine ⟨fun t i l acc => rfl, fun t i l acc => rfl, rfl⟩

/-- The offset loop produces one offset per remaining frame. -/
theorem offsetsLoop_length : ∀ (rest : List Nat) (f p : Nat),
    (offsetsLoop rest f p).length = rest.length := by
  intro rest
  induction rest with
  | nil => intro f p; rfl
  | cons l t ih => intro f p; simp [offsetsLoop, ih]

/-- In a segment built from an offset sequence starting with 0, the first
MP entry's offset field (bytes 66..69, after the 58-byte fixed header, the
4-byte attribute word and the 4-byte size) is zero. -/
theorem buildMPFSegment_drop66 (offs : List Nat) (s0 : Nat) (ss : List Nat)
    (l : List Nat) (h : buildMPFSegment (0 :: offs) (s0 :: ss) = some l) :
    (l.drop 66).take 4 = [0, 0, 0, 0] := by
  have hlen : (0 :: offs).length = (s0 :: ss).length := by
    by_contra hc
    rw [buildMPFSegment, if_pos hc] at h
    exact Option.noConfusion h
  rw [buildMPFSegment_eq _ _ hlen] at h
  have hl := Option.some.inj h
  subst hl
  rfl

/-- C6: for every non-empty image list successfully encoded by EncodeAll,
the offset field of the first MP entry in the emitted MPF segment is 0,
independent of the first frame's JFIF header length and of any computed
value: offsets[0] is overwritten with 0 before the segment is built. -/
theorem encodeAll_first_entry_offset (bufLens : List Nat) (jfifLen : Nat)
    (seg : List Nat) (hne : bufLens ≠ [])
    (h : encodeAllMPFSegment bufLens jfifLen = some seg) :
    (seg.drop 66).take 4 = [0, 0, 0, 0] := by
  obtain ⟨l0, rest, rfl⟩ := List.exists_cons_of_ne_nil hne
  rw [encodeAllMPFSegment] at h
  exact buildMPFSegment_drop66 _ l0 rest seg (by exact h)

/-- C6 witness: a single 10-byte frame with no JFIF header. -/
theorem encodeAll_first_entry_offset_witness :
    (((encodeAllMPFSegment [10] 0).getD []).drop 66).take 4 = [0, 0, 0, 0] :=
  encodeAll_first_entry_offset [10] 0 ((encodeAllMPFSegment [10] 0).getD [])
    (by decide) (by decide)

/-- The frame-decode loop aborts with the codec's error on the first frame
that fails, whatever follows it. -/
theorem decodeFrames_first_error {α ε β : Type} (dec : α → Except ε β)
    (x : α) (e : ε) :
    ∀ (l1 l2 : List α),
      (∀ y ∈ l1, ∃ b, dec y = Except.ok b) → dec x = Except.error e →
      decodeFrames dec (l1 ++ x :: l2) = Except.error e := by
  intro l1
  induction l1 with
  | nil =>
    intro l2 _ hx
    simp [decodeFrames, hx]
  | cons y ys ih =>
    intro l2 hok hx
    obtain ⟨b, hb⟩ := hok y (List.mem_cons_self y ys)
    have hrec := ih l2 (fun z hz => hok z (List.mem_cons_of_mem y hz)) hx
    simp [decodeFrames, hb, hrec]

/-- C7: if the scanned ranges split as l1 followed by a failing range x
(every range before x decodes, x fails with the codec error e), DecodeAll
returns that error and no partial container: the result is the error, not a
list holding the frames decoded before the failure. -/
theorem decodeAll_first_error {ε β : Type} (dec : Nat × Nat → Except ε β)
    (buf : List Nat) (l1 l2 : List (Nat × Nat)) (x : Nat × Nat) (e : ε)
    (hscan : scanRanges buf = l1 ++ x :: l2)
    (hok : ∀ y ∈ l1, ∃ b, dec y = Except.ok b)
    (hx : dec x = Except.error e) :
    decodeAllModel dec buf = Except.error e := by
  rw [decodeAllModel, hscan]
  exact decodeFrames_first_error dec x e l1 l2 hok hx

/-- C7 witness: a two-frame buffer whose second frame fails to decode. -/
theorem decodeAll_first_error_witness :
    decodeAllModel
      (fun r : Nat × Nat => if r.1 = 0 then Except.ok r.1 else Except.error 9)
      [255, 216, 255, 217, 255, 216, 255, 217] = Except.error 9 :=
  decodeAll_first_error _ _ [(0, 4)] [] (4, 8) 9 rfl
    (fun y hy => ⟨0, by
      have : y = (0, 4) := by simpa using hy
      subst this
      rfl⟩) rfl

/-- C8: EncodeAll invoked on a container holding zero images fails with
NoImagesError and writes no bytes to the output writer: the emptiness check
fires before any write, so the written-byte list is empty. -/
theorem encodeAll_empty {α ε : Type} (enc : α → Except ε (List Nat)) :
    encodeAllRun enc [] = (some EncErr.noImages, []) := rfl

/-- A non-marker byte inside the metadata scan advances the position by
one and consumes one unit of fuel. -/
theorem nintLoop_skip (data : List Nat) (pos fuel : Nat)
    (hlt : pos < data.length - 8) (hb : data.getD pos 0 ≠ 255) :
    nintLoop data pos (fuel + 1) = nintLoop data (pos + 1) fuel := by
  simp only [nintLoop]
  rw [if_pos hlt, if_neg (fun hc => hb hc.1)]

/-- Walking the metadata scan over k marker-free positions. -/
theorem nintLoop_walk (data : List Nat) :
    ∀ (k pos fuel : Nat),
      (∀ j, j < k → data.getD (pos + j) 0 ≠ 255) →
      (∀ j, j < k → pos + j + 8 < data.length) →
      nintLoop data pos (fuel + k) = nintLoop data (pos + k) fuel := by
  intro k
  induction k with
  | zero => intro pos fuel _ _; rfl
  | succ k ih =>
    intro pos fuel hb hin
    have h0b : data.getD pos 0 ≠ 255 := by
      have := hb 0 (by omega); simpa using this
    have h0in : pos + 8 < data.length := by
      have := hin 0 (by omega); omega
    rw [show fuel + (k + 1) = (fuel + k) + 1 from rfl]
    rw [nintLoop_skip data pos (fuel + k) (by omega) h0b]
    rw [show pos + (k + 1) = (pos + 1) + k from by omega]
    apply ih (pos + 1) fuel
    · intro j hj
      have := hb (j + 1) (by omega)
      rwa [show pos + (j + 1) = pos + 1 + j from by omega] at this
    · intro j hj
      have := hin (j + 1) (by omega)
      omega

/-- One iteration of the metadata scan at a position carrying a matching
APP2/NINT segment whose declared length covers at least the tag (at least
6) and is in bounds returns the slice from the end of the tag to the
declared segment end. -/
theorem nintLoop_match (data : List Nat) (pos fuel segLen : Nat)
    (h0 : data.getD pos 0 = 255) (h1 : data.getD (pos + 1) 0 = 226)
    (hseg : data.getD (pos + 2) 0 * 256 + data.getD (pos + 3) 0 = segLen)
    (h4 : data.getD (pos + 4) 0 = 78) (h5 : data.getD (pos + 5) 0 = 73)
    (h6 : data.getD (pos + 6) 0 = 78) (h7 : data.getD (pos + 7) 0 = 84)
    (hlt : pos < data.length - 8) (hs6 : 6 ≤ segLen)
    (hin : pos + 2 + segLen ≤ data.length) :
    nintLoop data pos (fuel + 1) =
      .ok (some ((data.drop (pos + 8)).take (pos + 2 + segLen - (pos + 8)))) := by
  simp only [nintLoop]
  rw [if_pos hlt, if_pos ⟨h0, by omega, h1⟩, if_neg (by omega), hseg,
    if_neg (by omega), if_pos ⟨by omega, h4, h5, h6, h7⟩,
    Nat.min_eq_left hin, if_neg (by omega)]

/-- A successful metadata extraction always comes from an actual marker,
APP2 code and NINT tag present in the buffer: if the scan returns a
payload, some position carries those bytes. -/
theorem nintLoop_some_match (data : List Nat) :
    ∀ (fuel pos : Nat) (r : List Nat), nintLoop data pos fuel = .ok (some r) →
      ∃ p, data.getD p 0 = 255 ∧ data.getD (p + 1) 0 = 226 ∧
        data.getD (p + 4) 0 = 78 ∧ data.getD (p + 5) 0 = 73 ∧
        data.getD (p + 6) 0 = 78 ∧ data.getD (p + 7) 0 = 84 := by
  intro fuel
  induction fuel with
  | zero => intro pos r h; exact Option.noConfusion (Except.ok.inj h)
  | succ fuel ih =>
    intro pos r h
    simp only [nintLoop] at h
    split_ifs at h with h1 h2 h3 h4 h5 h6
    all_goals first
      | exact Option.noConfusion (Except.ok.inj h)
      | exact Except.noConfusion h
      | exact ih _ _ h
      | exact ⟨pos, h2.1, h2.2.2, h5.2.1, h5.2.2.1, h5.2.2.2.1, h5.2.2.2.2⟩

/-- C9 amended: the metadata extractor returns exactly the bytes between
the end of the NINT tag and the declared segment end for a matching APP2
segment whose declared length covers at least the tag (at least 6), is in
bounds, and which is followed by at least one further byte of the buffer
(first conjunct; the scan runs only while pos < length - 8, so the
hypothesis 1 <= payload + rest length is required). Any successful
extraction comes from an actual APP2/NINT match, so a buffer with no tag
match yields ok none, not an error (second conjunct). A matching in-bounds
segment whose declared length is 2..5 crashes the extractor: the Go slice
length dataEnd - dataStart is negative and make panics (third conjunct).
A matching segment flush at the buffer end is never examined and yields
ok none (fourth conjunct). -/
theorem parseNintendo_spec :
    (∀ (pre payload rest : List Nat),
      255 ∉ pre → 1 ≤ payload.length + rest.length → payload.length ≤ 65529 →
      parseNintendoMetadata
        (pre ++ [255, 226, (6 + payload.length) / 256, (6 + payload.length) % 256,
          78, 73, 78, 84] ++ payload ++ rest) = .ok (some payload)) ∧
    (∀ (data r : List Nat), parseNintendoMetadata data = .ok (some r) →
      ∃ p, data.getD p 0 = 255 ∧ data.getD (p + 1) 0 = 226 ∧
        data.getD (p + 4) 0 = 78 ∧ data.getD (p + 5) 0 = 73 ∧
        data.getD (p + 6) 0 = 78 ∧ data.getD (p + 7) 0 = 84) ∧
    parseNintendoMetadata [255, 226, 0, 2, 78, 73, 78, 84, 9] = .error () ∧
    parseNintendoMetadata [255, 226, 0, 6, 78, 73, 78, 84] = .ok none := by
  refine ⟨?_, ?_, rfl, rfl⟩
  · intro pre payload rest hp hLR hL
    rw [parseNintendoMetadata]
    have hDlen : ((pre ++ [255, 226, (6 + payload.length) / 256,
        (6 + payload.length) % 256, 78, 73, 78, 84] ++ payload ++ rest)).length =
        pre.length + 8 + payload.length + rest.length := by
      simp
      omega
    have hgd : ∀ j, j < 8 →
        ((pre ++ [255, 226, (6 + payload.length) / 256,
          (6 + payload.length) % 256, 78, 73, 78, 84] ++ payload ++ rest)).getD
          (pre.length + j) 0 =
        ([255, 226, (6 + payload.length) / 256, (6 + payload.length) % 256,
          78, 73, 78, 84] : List Nat).getD j 0 := by
      intro j hj
      rw [List.getD_append _ _ _ _ (by simp; omega),
        List.getD_append _ _ _ _ (by simp; omega),
        List.getD_append_right _ _ _ _ (by omega),
        show pre.length + j - pre.length = j from by omega]
    have hwalk := nintLoop_walk
      (pre ++ [255, 226, (6 + payload.length) / 256,
        (6 + payload.length) % 256, 78, 73, 78, 84] ++ payload ++ rest)
      pre.length 0 (8 + payload.length + rest.length)
      (fun j hj => by
        rw [show (0 : Nat) + j = j from by omega,
          List.getD_append _ _ _ _ (by simp; omega),
          List.getD_append _ _ _ _ (by simp; omega),
          List.getD_append _ _ _ _ (by omega),
          List.getD_eq_getElem _ _ (by omega)]
        exact fun hc => hp (hc ▸ List.getElem_mem _)
        )
      (fun j hj => by rw [hDlen]; omega)
    rw [show ((pre ++ [255, 226, (6 + payload.length) / 256,
        (6 + payload.length) % 256, 78, 73, 78, 84] ++ payload ++ rest)).length =
        (8 + payload.length + rest.length) + pre.length from by rw [hDlen]; omega]
    rw [hwalk, Nat.zero_add]
    rw [show 8 + payload.length + rest.length =
      (7 + payload.length + rest.length) + 1 from by omega]
    rw [nintLoop_match _ pre.length (7 + payload.length + rest.length)
      (6 + payload.length)
      (by have := hgd 0 (by omega); simpa using this)
      (by have := hgd 1 (by omega); simpa using this)
      (by rw [hgd 2 (by omega), hgd 3 (by omega)]
          show (6 + payload.length) / 256 * 256 + (6 + payload.length) % 256 =
            6 + payload.length
          omega)
      (by have := hgd 4 (by omega); simpa using this)
      (by have := hgd 5 (by omega); simpa using this)
      (by have := hgd 6 (by omega); simpa using this)
      (by have := hgd 7 (by omega); simpa using this)
      (by rw [hDlen]; omega)
      (by omega)
      (by rw [hDlen]; omega)]
    have hdrop : ((pre ++ [255, 226, (6 + payload.length) / 256,
        (6 + payload.length) % 256, 78, 73, 78, 84] ++ payload ++ rest)).drop
        (pre.length + 8) = payload ++ rest := by
      rw [List.append_assoc
        (pre ++ [255, 226, (6 + payload.length) / 256,
          (6 + payload.length) % 256, 78, 73, 78, 84]) payload rest]
      exact List.drop_left' (by simp)
    rw [hdrop,
      show pre.length + 2 + (6 + payload.length) - (pre.length + 8) =
        payload.length from by omega,
      List.take_left]
  · intro data r h
    exact nintLoop_some_match data data.length 0 r h

/-- C9 counterexample: a buffer carrying an APP2/NINT segment whose
declared length (0x00FF = 255, so declared end 257) overruns the 10-byte
buffer. The claim says the extractor returns the bytes between the tag and
the buffer end, some [1, 2]; the code instead skips the segment
byte-by-byte and finds nothing. -/
theorem parseNintendo_overrun_not_clipped :
    parseNintendoMetadata [255, 226, 0, 255, 78, 73, 78, 84, 1, 2] = .ok none ∧
      ¬ (parseNintendoMetadata [255, 226, 0, 255, 78, 73, 78, 84, 1, 2] =
        .ok (some [1, 2])) := by
  refine ⟨rfl, fun h => ?_⟩
  rw [show parseNintendoMetadata [255, 226, 0, 255, 78, 73, 78, 84, 1, 2] =
    Except.ok none from rfl] at h
  exact Option.noConfusion (Except.ok.inj h)

/-- C9 witness: the amended theorem applied to an empty prefix, a 2-byte
payload and a 1-byte tail; the declared length 8 covers the tag and
payload exactly. -/
theorem parseNintendo_spec_witness :
    parseNintendoMetadata [255, 226, 0, 8, 78, 73, 78, 84, 5, 6, 7] =
      .ok (some [5, 6]) := by
  have h := parseNintendo_spec.1 [] [5, 6] [7] (by decide) (by decide) (by decide)
  simpa using h

end Mpo
